import Mathlib

/-!
Verification of the character-level encoding pipeline of `bin/lib.py`
(`legal_characters`, `get_char_indices`, `get_indices_char`, `gen_x_y`).

Strings are modelled as lists of byte code points (`List Nat`): the source is
Python 2, where a `str` is a byte string and iteration yields single bytes.
Dictionary lookups that can raise `KeyError` are modelled with `Option`.
-/

namespace Lib

/-- Code points of Python 2 `string.printable`:
digits, ascii lowercase, ascii uppercase, punctuation, whitespace
(space, tab, newline, carriage return, vertical tab, form feed). -/
def string_printable : List Nat :=
  [48, 49, 50, 51, 52, 53, 54, 55, 56, 57,
   97, 98, 99, 100, 101, 102, 103, 104, 105, 106, 107, 108, 109, 110, 111,
   112, 113, 114, 115, 116, 117, 118, 119, 120, 121, 122,
   65, 66, 67, 68, 69, 70, 71, 72, 73, 74, 75, 76, 77, 78, 79, 80, 81, 82,
   83, 84, 85, 86, 87, 88, 89, 90,
   33, 34, 35, 36, 37, 38, 39, 40, 41, 42, 43, 44, 45, 46, 47,
   58, 59, 60, 61, 62, 63, 64, 91, 92, 93, 94, 95, 96, 123, 124, 125, 126,
   9, 10, 11, 12, 13, 32]

/-- Duplicate removal, modelling Python `set(...)` construction (the order of
the result is irrelevant: every later use sorts or tests membership). -/
def dedupList : List Nat → List Nat
  | [] => []
  | c :: rest => if c ∈ rest then dedupList rest else c :: dedupList rest

/-- Model of `legal_characters()`: the set of printable characters plus the
sentinel bytes 60 and 62, with newline (10) and carriage return (13)
removed. -/
def legal_characters : List Nat :=
  (dedupList (string_printable ++ [60, 62])).filter (fun c => c != 10 && c != 13)

/-- Insert into a sorted list (helper for `sortChars`). -/
def insertSorted (c : Nat) : List Nat → List Nat
  | [] => [c]
  | x :: xs => if c ≤ x then c :: x :: xs else x :: insertSorted c xs

/-- Sorting by code point, modelling Python `sorted(...)` on a duplicate-free
character list. -/
def sortChars : List Nat → List Nat
  | [] => []
  | x :: xs => insertSorted x (sortChars xs)

/-- Model of the sorted character list computed inside `get_char_indices`
and `get_indices_char`. -/
def sortedChars : List Nat := sortChars legal_characters

/-- Position of the first occurrence of `c`, modelling lookup in the dict
`dict((c, i) for i, c in enumerate(chars))`. -/
def indexIn (c : Nat) : List Nat → Option Nat
  | [] => none
  | x :: xs => if x = c then some 0 else (indexIn c xs).map (· + 1)

/-- Model of `get_char_indices()`: the character-to-index dict, as a lookup
returning an Option; `none` models a missing key. -/
def char_indices (c : Nat) : Option Nat := indexIn c sortedChars

/-- Model of `get_indices_char()`: the index-to-character dict, as a lookup
returning an Option. -/
def indices_char (i : Nat) : Option Nat := sortedChars[i]?

/-- Model of the padding value passed to `pad_sequences` in `gen_x_y`: the
maximum key of the index-to-character dict plus one (the dict keys are the
range below the vocabulary size). -/
def pad_value : Nat := (List.range sortedChars.length).foldl max 0 + 1

/-- Python 2 `str.lower` on a byte: ascii uppercase maps to lowercase,
everything else is unchanged. -/
def toLowerByte (c : Nat) : Nat := if 65 ≤ c ∧ c ≤ 90 then c + 32 else c

/-- The byte class matched by the regex `\s` and stripped by `str.strip()`:
space, tab, newline, vertical tab, form feed, carriage return. -/
def isSpaceByte (c : Nat) : Bool :=
  c == 32 || c == 9 || c == 10 || c == 11 || c == 12 || c == 13

/-- Worker for `collapseWS`; the flag records whether the previous input byte
was whitespace (in which case further whitespace is absorbed). -/
def collapseAux : Bool → List Nat → List Nat
  | _, [] => []
  | inRun, c :: rest =>
    if isSpaceByte c then
      if inRun then collapseAux true rest else 32 :: collapseAux true rest
    else c :: collapseAux false rest

/-- Model of the whitespace-collapsing regex substitution in `gen_x_y`:
every maximal whitespace run becomes one space (byte 32). -/
def collapseWS (l : List Nat) : List Nat := collapseAux false l

/-- Remove trailing whitespace (helper for `stripWS`). -/
def dropTrailingWS : List Nat → List Nat
  | [] => []
  | c :: rest =>
    match dropTrailingWS rest with
    | [] => if isSpaceByte c then [] else [c]
    | r => c :: r

/-- Model of the strip call: remove leading and trailing whitespace. -/
def stripWS (l : List Nat) : List Nat := dropTrailingWS (l.dropWhile isSpaceByte)

/-- Model of the regex substitution replacing byte 60 with a space, on one
byte. -/
def sub60 (c : Nat) : Nat := if c == 60 then 32 else c

/-- Model of the regex substitution replacing byte 62 with a space, on one
byte. -/
def sub62 (c : Nat) : Nat := if c == 62 then 32 else c

/-- Steps 1-2 of the cleaning loop in `gen_x_y`: lower-case each byte, then
replace every byte outside `legal_characters()` with a space. -/
def cleanStage (t : List Nat) : List Nat :=
  (t.map toLowerByte).map (fun c => if c ∈ legal_characters then c else 32)

/-- Steps 3-4: collapse whitespace runs and strip the ends. -/
def wsStage (t : List Nat) : List Nat := stripWS (collapseWS (cleanStage t))

/-- Steps 5 of the cleaning loop: the two `re.sub` calls replacing `<` and
`>` with spaces.  This is everything between the sentinels. -/
def normBody (t : List Nat) : List Nat := ((wsStage t).map sub60).map sub62

/-- The full per-record cleaning in `gen_x_y`: clean, collapse, strip,
substitute the sentinel bytes away, then wrap with `<` (60) and `>` (62). -/
def normalize (t : List Nat) : List Nat := 60 :: (normBody t ++ [62])

/-- Model of the per-character vocabulary lookup in `gen_x_y`: encode each
byte through the vocabulary; `none` models a missing key on any byte. -/
def encodeChars : List Nat → Option (List Nat)
  | [] => some []
  | c :: cs =>
    match char_indices c, encodeChars cs with
    | some i, some is => some (i :: is)
    | _, _ => none

/-- One row of `pad_sequences(..., maxlen, value)` with the keras defaults
pre-padding and pre-truncation.  Modelled from the spec: the callee
`keras.preprocessing.sequence.pad_sequences` is an external dependency whose
body is not in the repository; spec section 4.3 fixes its policy (keep the
last `maxlen` elements when too long, left-pad with `pad` when too short). -/
def align (s : List Nat) (maxlen pad : Nat) : List Nat :=
  if maxlen ≤ s.length then s.drop (s.length - maxlen)
  else List.replicate (maxlen - s.length) pad ++ s

/-- A raw label value as accepted by `numpy.array(y_list, dtype=bool)`:
booleans, integers, byte strings, or Python `None`. -/
inductive RawLabel
  | bool (b : Bool)
  | int (n : Int)
  | str (s : List Nat)
  | none
deriving DecidableEq

/-- Python truthiness, as applied elementwise by
`numpy.array(y_list, dtype=bool)`. -/
def truthy : RawLabel → Bool
  | .bool b => b
  | .int n => n != 0
  | .str s => s != []
  | .none => false

/-- Model of the label coercion to a boolean vector in `gen_x_y`. -/
def build_y (labels : List RawLabel) : List Bool := labels.map truthy

/-- The cleaning-and-encoding loop of `gen_x_y` over the whole batch:
`cleaned_text_indices`.  `none` models a `KeyError` inside any record. -/
def encodeAll : List (List Nat) → Option (List (List Nat))
  | [] => some []
  | t :: ts =>
    match encodeChars (normalize t), encodeAll ts with
    | some s, some ss => some (s :: ss)
    | _, _ => none

/-- Model of `gen_x_y(uncleaned_text, y_list)` with the configured
`x_maxlen` passed explicitly: clean and encode every record, align each
index sequence with `pad_sequences`, and coerce the labels to booleans. -/
def gen_x_y (texts : List (List Nat)) (y_list : List RawLabel) (maxlen : Nat) :
    Option (List (List Nat) × List Bool) :=
  match encodeAll texts with
  | some seqs => some (seqs.map (fun s => align s maxlen pad_value), build_y y_list)
  | none => none

/-- The concrete value of `sortedChars`, kept as a literal so that decision
procedures need not re-run the dedup and sort. -/
def charsLit : List Nat :=
  [9, 11, 12, 32, 33, 34, 35, 36, 37, 38, 39, 40, 41, 42, 43, 44, 45, 46, 47,
   48, 49, 50, 51, 52, 53, 54, 55, 56, 57, 58, 59, 60, 61, 62, 63, 64,
   65, 66, 67, 68, 69, 70, 71, 72, 73, 74, 75, 76, 77, 78, 79, 80, 81, 82,
   83, 84, 85, 86, 87, 88, 89, 90, 91, 92, 93, 94, 95, 96,
   97, 98, 99, 100, 101, 102, 103, 104, 105, 106, 107, 108, 109, 110, 111,
   112, 113, 114, 115, 116, 117, 118, 119, 120, 121, 122, 123, 124, 125, 126]

theorem sortedChars_eq : sortedChars = charsLit := by decide

/-- The concrete value of `legal_characters` (dedup keeps last occurrences). -/
def legalLit : List Nat :=
  [48, 49, 50, 51, 52, 53, 54, 55, 56, 57,
   97, 98, 99, 100, 101, 102, 103, 104, 105, 106, 107, 108, 109, 110, 111,
   112, 113, 114, 115, 116, 117, 118, 119, 120, 121, 122,
   65, 66, 67, 68, 69, 70, 71, 72, 73, 74, 75, 76, 77, 78, 79, 80, 81, 82,
   83, 84, 85, 86, 87, 88, 89, 90,
   33, 34, 35, 36, 37, 38, 39, 40, 41, 42, 43, 44, 45, 46, 47,
   58, 59, 61, 63, 64, 91, 92, 93, 94, 95, 96, 123, 124, 125, 126,
   9, 11, 12, 32, 60, 62]

theorem legal_characters_eq : legal_characters = legalLit := by decide

example : normalize [72, 105] = [60, 104, 105, 62] := by decide

example : align [3, 7, 4] 10 12 = [12, 12, 12, 12, 12, 12, 12, 3, 7, 4] := by decide

/-! ### Membership helpers for the cleaning pipeline -/

theorem mem_cleanStage_legal {t : List Nat} : ∀ c ∈ cleanStage t, c ∈ legal_characters := by
  intro c hc
  unfold cleanStage at hc
  rcases List.mem_map.mp hc with ⟨b, _, hb⟩
  by_cases h : b ∈ legal_characters
  · rw [if_pos h] at hb
    exact hb ▸ h
  · rw [if_neg h] at hb
    exact hb ▸ (by decide : (32 : Nat) ∈ legal_characters)

theorem mem_collapseAux {c : Nat} :
    ∀ (l : List Nat) (b : Bool), c ∈ collapseAux b l → c = 32 ∨ c ∈ l := by
  intro l
  induction l with
  | nil => intro b h; simp [collapseAux] at h
  | cons x xs ih =>
    intro b h
    unfold collapseAux at h
    split at h
    · split at h
      · rcases ih _ h with h' | h'
        · exact Or.inl h'
        · exact Or.inr (List.mem_cons_of_mem _ h')
      · rcases List.mem_cons.mp h with h' | h'
        · exact Or.inl h'
        · rcases ih _ h' with h'' | h''
          · exact Or.inl h''
          · exact Or.inr (List.mem_cons_of_mem _ h'')
    · rcases List.mem_cons.mp h with h' | h'
      · exact Or.inr (h' ▸ List.mem_cons_self x xs)
      · rcases ih _ h' with h'' | h''
        · exact Or.inl h''
        · exact Or.inr (List.mem_cons_of_mem _ h'')

theorem mem_dropWhileWS {c : Nat} : ∀ l : List Nat, c ∈ l.dropWhile isSpaceByte → c ∈ l := by
  intro l
  induction l with
  | nil => intro h; simp [List.dropWhile] at h
  | cons x xs ih =>
    intro h
    rw [List.dropWhile_cons] at h
    split at h
    · exact List.mem_cons_of_mem _ (ih h)
    · exact h

theorem mem_dropTrailingWS {c : Nat} : ∀ l : List Nat, c ∈ dropTrailingWS l → c ∈ l := by
  intro l
  induction l with
  | nil => intro h; simp [dropTrailingWS] at h
  | cons x xs ih =>
    intro h
    unfold dropTrailingWS at h
    split at h
    · split at h
      · cases h
      · rcases List.mem_singleton.mp h with rfl
        exact List.mem_cons_self _ _
    · rcases List.mem_cons.mp h with rfl | h'
      · exact List.mem_cons_self _ _
      · exact List.mem_cons_of_mem _ (ih h')

theorem mem_stripWS {c : Nat} (l : List Nat) (h : c ∈ stripWS l) : c ∈ l :=
  mem_dropWhileWS _ (mem_dropTrailingWS _ h)

theorem mem_map_sub60 {c : Nat} (l : List Nat) (h : c ∈ l.map sub60) : c = 32 ∨ c ∈ l := by
  rcases List.mem_map.mp h with ⟨b, hb, hbe⟩
  by_cases h6 : b = 60
  · left
    rw [← hbe]
    simp [sub60, h6]
  · right
    rw [← hbe]
    simpa [sub60, h6] using hb

theorem mem_map_sub62 {c : Nat} (l : List Nat) (h : c ∈ l.map sub62) : c = 32 ∨ c ∈ l := by
  rcases List.mem_map.mp h with ⟨b, hb, hbe⟩
  by_cases h6 : b = 62
  · left
    rw [← hbe]
    simp [sub62, h6]
  · right
    rw [← hbe]
    simpa [sub62, h6] using hb

theorem not60_map_sub60 (l : List Nat) : 60 ∉ l.map sub60 := by
  intro h
  rcases List.mem_map.mp h with ⟨b, _, hb⟩
  by_cases h6 : b = 60
  · simp [sub60, h6] at hb
  · simp [sub60, h6] at hb

theorem not62_map_sub62 (l : List Nat) : 62 ∉ l.map sub62 := by
  intro h
  rcases List.mem_map.mp h with ⟨b, _, hb⟩
  by_cases h6 : b = 62
  · simp [sub62, h6] at hb
  · simp [sub62, h6] at hb

theorem not60_map_sub62 {l : List Nat} (h : 60 ∉ l) : 60 ∉ l.map sub62 := by
  intro hm
  rcases List.mem_map.mp hm with ⟨b, hb, hbe⟩
  by_cases h6 : b = 62
  · simp [sub62, h6] at hbe
  · simp [sub62, h6] at hbe
    exact h (hbe ▸ hb)

theorem normBody_not60 (t : List Nat) : 60 ∉ normBody t :=
  not60_map_sub62 (not60_map_sub60 _)

theorem normBody_not62 (t : List Nat) : 62 ∉ normBody t :=
  not62_map_sub62 _

theorem normBody_legal (t : List Nat) : ∀ c ∈ normBody t, c ∈ legal_characters := by
  intro c hc
  unfold normBody at hc
  rcases mem_map_sub62 _ hc with rfl | hc2
  · decide
  rcases mem_map_sub60 _ hc2 with rfl | hc3
  · decide
  unfold wsStage at hc3
  rcases mem_collapseAux _ _ (mem_stripWS _ hc3) with rfl | hc5
  · decide
  exact mem_cleanStage_legal _ hc5

/-! ### Vocabulary lookup helpers -/

theorem indexIn_isSome_of_mem {c : Nat} : ∀ l : List Nat, c ∈ l → ∃ i, indexIn c l = some i := by
  intro l
  induction l with
  | nil => intro h; cases h
  | cons x xs ih =>
    intro h
    by_cases hx : x = c
    · exact ⟨0, by simp [indexIn, hx]⟩
    · have hc : c ∈ xs := by
        rcases List.mem_cons.mp h with h' | h'
        · exact absurd h'.symm hx
        · exact h'
      rcases ih hc with ⟨i, hi⟩
      exact ⟨i + 1, by simp [indexIn, hx, hi]⟩

theorem mem_insertSorted {c x : Nat} : ∀ l : List Nat, x = c ∨ x ∈ l → x ∈ insertSorted c l := by
  intro l
  induction l with
  | nil =>
    intro h
    rcases h with rfl | h
    · exact List.mem_singleton.mpr rfl
    · cases h
  | cons y ys ih =>
    intro h
    unfold insertSorted
    split
    · rcases h with rfl | h
      · exact List.mem_cons_self _ _
      · exact List.mem_cons_of_mem _ h
    · rcases h with rfl | h
      · exact List.mem_cons_of_mem _ (ih (Or.inl rfl))
      · rcases List.mem_cons.mp h with rfl | h'
        · exact List.mem_cons_self _ _
        · exact List.mem_cons_of_mem _ (ih (Or.inr h'))

theorem mem_sortChars {x : Nat} : ∀ l : List Nat, x ∈ l → x ∈ sortChars l := by
  intro l
  induction l with
  | nil => intro h; cases h
  | cons y ys ih =>
    intro h
    unfold sortChars
    rcases List.mem_cons.mp h with rfl | h'
    · exact mem_insertSorted _ (Or.inl rfl)
    · exact mem_insertSorted _ (Or.inr (ih h'))

theorem char_indices_isSome {c : Nat} (h : c ∈ legal_characters) : ∃ i, char_indices c = some i :=
  indexIn_isSome_of_mem _ (mem_sortChars _ h)

theorem encodeChars_total :
    ∀ l : List Nat, (∀ c ∈ l, c ∈ legal_characters) → ∃ s, encodeChars l = some s := by
  intro l
  induction l with
  | nil => intro _; exact ⟨[], rfl⟩
  | cons x xs ih =>
    intro h
    rcases char_indices_isSome (h x (List.mem_cons_self _ _)) with ⟨i, hi⟩
    rcases ih (fun c hc => h c (List.mem_cons_of_mem _ hc)) with ⟨s, hs⟩
    exact ⟨i :: s, by simp [encodeChars, hi, hs]⟩

/-! ### Claims C3 and C8 -/

/-- C3: for every raw text `t`, `normalize t` starts with the `<` sentinel
(byte 60), ends with the `>` sentinel (byte 62), and contains exactly one
occurrence of each (no other `<` or `>`); an empty raw text normalizes to
`<>`, and normalization is total. -/
theorem C3_sentinel_placement :
    (∀ t : List Nat,
      (normalize t).head? = some 60 ∧ (normalize t).getLast? = some 62 ∧
      (normalize t).count 60 = 1 ∧ (normalize t).count 62 = 1) ∧
    normalize [] = [60, 62] := by
  constructor
  · intro t
    refine ⟨rfl, ?_, ?_, ?_⟩
    · show (60 :: (normBody t ++ [62])).getLast? = some 62
      rw [← List.cons_append]
      exact List.getLast?_concat _
    · show (60 :: (normBody t ++ [62])).count 60 = 1
      rw [List.count_cons, List.count_append, List.count_eq_zero.mpr (normBody_not60 t)]
      simp
    · show (60 :: (normBody t ++ [62])).count 62 = 1
      rw [List.count_cons, List.count_append, List.count_eq_zero.mpr (normBody_not62 t)]
      simp
  · decide

theorem normalize_all_legal (t : List Nat) : ∀ c ∈ normalize t, c ∈ legal_characters := by
  intro c hc
  unfold normalize at hc
  rcases List.mem_cons.mp hc with rfl | hc'
  · decide
  rcases List.mem_append.mp hc' with hb | he
  · exact normBody_legal t c hb
  · rcases List.mem_singleton.mp he with rfl
    decide

/-- C8: every character of a normalized text is a member of the legal
character set, so the per-character vocabulary lookup during encoding is
total: encoding the output of the normalizer never hits the missing-key
branch. -/
theorem C8_encoding_total_after_normalize (t : List Nat) :
    (∀ c ∈ normalize t, c ∈ legal_characters) ∧
    ∃ s, encodeChars (normalize t) = some s :=
  ⟨normalize_all_legal t, encodeChars_total _ (normalize_all_legal t)⟩

/-! ### Claim C1: the alignment policy of `pad_sequences` -/

/-- C1: alignment to width `L` returns the sequence unchanged when it already
has length `L`; truncates from the front keeping exactly the last `L`
elements when longer (element `i` of the result is element
`length - L + i` of the input); and otherwise pads at the front with the
padding value, the real content right-aligned at the end. -/
theorem C1_align_policy (s : List Nat) (L pad : Nat) (hL : 0 < L) :
    (s.length = L → align s L pad = s) ∧
    (s.length > L → (align s L pad).length = L ∧
      ∀ i, i < L → (align s L pad)[i]? = s[s.length - L + i]?) ∧
    (s.length < L → (align s L pad).length = L ∧
      (∀ i, i < L - s.length → (align s L pad)[i]? = some pad) ∧
      (align s L pad).drop (L - s.length) = s) := by
  refine ⟨?_, ?_, ?_⟩
  · intro h
    simp [align, h]
  · intro h
    have h1 : L ≤ s.length := Nat.le_of_lt h
    constructor
    · simp only [align, if_pos h1, List.length_drop]
      omega
    · intro i _
      simp only [align, if_pos h1]
      rw [List.getElem?_drop]
  · intro h
    have h1 : ¬ L ≤ s.length := by omega
    refine ⟨?_, ?_, ?_⟩
    · simp only [align, if_neg h1, List.length_append, List.length_replicate]
      omega
    · intro i hi
      simp only [align, if_neg h1]
      rw [List.getElem?_append_left (by simpa using hi)]
      rw [List.getElem?_replicate, if_pos hi]
    · simp only [align, if_neg h1]
      exact List.drop_left' (by simp)

/-- Witness for C1 at the concrete input `[5, 6, 7]`, width 2, pad 0. -/
theorem C1_align_policy_witness :
    0 < 2 ∧
    ((([5, 6, 7] : List Nat).length = 2 → align [5, 6, 7] 2 0 = [5, 6, 7]) ∧
     (([5, 6, 7] : List Nat).length > 2 → (align [5, 6, 7] 2 0).length = 2 ∧
       ∀ i, i < 2 →
         (align [5, 6, 7] 2 0)[i]? =
           ([5, 6, 7] : List Nat)[([5, 6, 7] : List Nat).length - 2 + i]?) ∧
     (([5, 6, 7] : List Nat).length < 2 → (align [5, 6, 7] 2 0).length = 2 ∧
       (∀ i, i < 2 - ([5, 6, 7] : List Nat).length →
         (align [5, 6, 7] 2 0)[i]? = some 0) ∧
       (align [5, 6, 7] 2 0).drop (2 - ([5, 6, 7] : List Nat).length) = [5, 6, 7])) :=
  ⟨by decide, C1_align_policy [5, 6, 7] 2 0 (by decide)⟩

/-! ### Claims C4 and C5: the vocabulary -/

/-- Returns `true` when consecutive elements strictly increase. -/
def strictIncreasing : List Nat → Bool
  | [] => true
  | [_] => true
  | a :: b :: rest => Nat.blt a b && strictIncreasing (b :: rest)

set_option maxRecDepth 40000 in
/-- C4: the vocabulary is a bijection between the legal character set and
the contiguous index range: every legal character encodes to an index inside
`[0, |vocabulary| - 1]` that decodes back to it; every index in that range
decodes to a legal character that encodes back to it; the character list is
strictly increasing in code point (so indices increase in code-point order);
and encoding is injective (no duplicate indices). -/
theorem C4_vocabulary_bijection :
    (∀ c ∈ legal_characters, ∃ i ∈ List.range sortedChars.length,
      char_indices c = some i ∧ indices_char i = some c) ∧
    (∀ i ∈ List.range sortedChars.length, ∃ c ∈ legal_characters,
      indices_char i = some c ∧ char_indices c = some i) ∧
    strictIncreasing sortedChars = true ∧
    (∀ c ∈ legal_characters, ∀ d ∈ legal_characters,
      char_indices c = char_indices d → c = d) := by
  have h1 : ∀ c ∈ legal_characters, ∃ i ∈ List.range sortedChars.length,
      char_indices c = some i ∧ indices_char i = some c := by
    simp only [char_indices, indices_char, sortedChars_eq, legal_characters_eq]
    decide
  refine ⟨h1, ?_, ?_, ?_⟩
  · simp only [char_indices, indices_char, sortedChars_eq, legal_characters_eq]
    decide
  · rw [sortedChars_eq]
    decide
  · intro c hc d hd he
    rcases h1 c hc with ⟨i, _, hci, hic⟩
    rcases h1 d hd with ⟨j, _, hdj, hjd⟩
    have hij : i = j := by
      rw [hci, hdj] at he
      exact Option.some.inj he
    rw [hij, hjd] at hic
    exact (Option.some.inj hic).symm

set_option maxRecDepth 40000 in
/-- C5: the padding value equals the vocabulary size (one past the largest
valid index) and never coincides with the index of any legal character. -/
theorem C5_padding_value :
    pad_value = sortedChars.length ∧
    ∀ c ∈ legal_characters, char_indices c ≠ some pad_value := by
  constructor
  · simp only [pad_value, sortedChars_eq]
    decide
  · simp only [char_indices, pad_value, sortedChars_eq, legal_characters_eq]
    decide

/-! ### Claim C9: label vectorization -/

/-- C9: the label vector has one boolean per raw label, the `i`-th entry
being the standard truthiness of the `i`-th label; in particular
`[True, 0, "yes"]` becomes `[true, false, true]`. -/
theorem C9_label_vector (labels : List RawLabel) (i : Nat) :
    (build_y labels).length = labels.length ∧
    (build_y labels)[i]? = (labels[i]?).map truthy ∧
    build_y [RawLabel.bool true, RawLabel.int 0, RawLabel.str [121, 101, 115]] =
      [true, false, true] := by
  refine ⟨?_, ?_, by decide⟩
  · simp [build_y]
  · simp [build_y]

/-! ### Structural lemmas about `gen_x_y` -/

theorem align_length (s : List Nat) (L pad : Nat) : (align s L pad).length = L := by
  unfold align
  split
  · rw [List.length_drop]
    omega
  · rw [List.length_append, List.length_replicate]
    omega

theorem encodeAll_total :
    ∀ ts : List (List Nat), ∃ ss, encodeAll ts = some ss ∧ ss.length = ts.length := by
  intro ts
  induction ts with
  | nil => exact ⟨[], rfl, rfl⟩
  | cons t ts ih =>
    rcases encodeChars_total _ (normalize_all_legal t) with ⟨s, hs⟩
    rcases ih with ⟨ss, hss, hlen⟩
    exact ⟨s :: ss, by simp [encodeAll, hs, hss], by simp [hlen]⟩

theorem encodeAll_mem :
    ∀ (ts ss : List (List Nat)), encodeAll ts = some ss →
      ∀ s ∈ ss, ∃ t ∈ ts, encodeChars (normalize t) = some s := by
  intro ts
  induction ts with
  | nil =>
    intro ss h s hs
    simp [encodeAll] at h
    subst h
    cases hs
  | cons t ts ih =>
    intro ss h s hs
    unfold encodeAll at h
    split at h
    · rename_i s' ss' heq1 heq2
      cases h
      rcases List.mem_cons.mp hs with rfl | hmem
      · exact ⟨t, List.mem_cons_self _ _, heq1⟩
      · rcases ih _ heq2 _ hmem with ⟨t', ht', he'⟩
        exact ⟨t', List.mem_cons_of_mem _ ht', he'⟩
    · cases h

theorem gen_x_y_eq (texts : List (List Nat)) (labels : List RawLabel) (L : Nat) :
    ∃ seqs, encodeAll texts = some seqs ∧ seqs.length = texts.length ∧
      gen_x_y texts labels L =
        some (seqs.map (fun s => align s L pad_value), build_y labels) := by
  rcases encodeAll_total texts with ⟨ss, hss, hlen⟩
  exact ⟨ss, hss, hlen, by simp [gen_x_y, hss]⟩

/-! ### Claims C6, C7 and C10 -/

set_option maxRecDepth 40000 in
/-- C6 counterexample: `gen_x_y` on two texts and one label does not fail:
it silently returns a two-row matrix and a one-element label vector. -/
theorem C6_counterexample :
    gen_x_y [[97], [98]] [RawLabel.bool true] 5 =
      some ([[98, 98, 31, 68, 33], [98, 98, 31, 69, 33]], [true]) := by
  decide

/-- C6 (amended): the implementation performs no length check between texts
and labels: whenever `gen_x_y` succeeds it returns one matrix row per text
and one boolean per label, silently accepting mismatched counts. -/
theorem C6_no_length_check (texts : List (List Nat)) (labels : List RawLabel) (L : Nat)
    (x : List (List Nat)) (y : List Bool)
    (h : gen_x_y texts labels L = some (x, y)) :
    x.length = texts.length ∧ y.length = labels.length := by
  rcases gen_x_y_eq texts labels L with ⟨ss, _, hlen, hg⟩
  rw [hg] at h
  injection h with h
  injection h with hx hy
  subst hx
  subst hy
  constructor
  · simp [hlen]
  · simp [build_y]

/-- Witness for C6 (amended) at one text and zero labels. -/
theorem C6_no_length_check_witness :
    ([[33]] : List (List Nat)).length = ([[97]] : List (List Nat)).length ∧
    ([] : List Bool).length = ([] : List RawLabel).length :=
  C6_no_length_check [[97]] [] 1 [[33]] [] (by decide)

/-- C7: for every batch and positive width `L`, `gen_x_y` succeeds and
returns a matrix with one row of length exactly `L` per text, together with
one boolean per label; in particular the empty batch yields empty outputs
without failure. -/
theorem C7_fixed_width (texts : List (List Nat)) (labels : List RawLabel)
    (L : Nat) (_hL : 0 < L) :
    ∃ x y, gen_x_y texts labels L = some (x, y) ∧
      x.length = texts.length ∧ (∀ row ∈ x, row.length = L) ∧
      y.length = labels.length := by
  rcases gen_x_y_eq texts labels L with ⟨ss, _, hlen, hg⟩
  refine ⟨_, _, hg, ?_, ?_, ?_⟩
  · simp [hlen]
  · intro row hrow
    rcases List.mem_map.mp hrow with ⟨s, _, rfl⟩
    exact align_length s L pad_value
  · simp [build_y]

/-- Witness for C7 at the empty batch with width 3. -/
theorem C7_fixed_width_witness :
    0 < 3 ∧
    ∃ x y, gen_x_y [] [] 3 = some (x, y) ∧
      x.length = 0 ∧ (∀ row ∈ x, row.length = 3) ∧ y.length = 0 :=
  ⟨by decide, C7_fixed_width [] [] 3 (by decide)⟩

theorem encodeChars_concat :
    ∀ (l : List Nat) (c : Nat) (s : List Nat), encodeChars (l ++ [c]) = some s →
      ∃ s' i, char_indices c = some i ∧ s = s' ++ [i] := by
  intro l
  induction l with
  | nil =>
    intro c s h
    rw [List.nil_append] at h
    cases hc : char_indices c with
    | none => simp [encodeChars, hc] at h
    | some i =>
      simp [encodeChars, hc] at h
      exact ⟨[], i, rfl, by simp [← h]⟩
  | cons x xs ih =>
    intro c s h
    rw [List.cons_append] at h
    cases hx : char_indices x with
    | none => simp [encodeChars, hx] at h
    | some j =>
      cases he : encodeChars (xs ++ [c]) with
      | none => simp [encodeChars, hx, he] at h
      | some s2 =>
        simp [encodeChars, hx, he] at h
        rcases ih c s2 he with ⟨s', i, hci, rfl⟩
        exact ⟨j :: s', i, hci, by simp [← h]⟩

theorem getLast?_cons_of_ne_nil {c : Nat} :
    ∀ l : List Nat, l ≠ [] → (c :: l).getLast? = l.getLast? := by
  intro l h
  cases l with
  | nil => exact absurd rfl h
  | cons y ys => exact List.getLast?_cons_cons

theorem getLast?_dropN :
    ∀ (l : List Nat) (n : Nat), n < l.length → (l.drop n).getLast? = l.getLast? := by
  intro l
  induction l with
  | nil => intro n h; simp at h
  | cons x xs ih =>
    intro n h
    cases n with
    | zero => rfl
    | succ m =>
      rw [List.drop_succ_cons]
      have hm : m < xs.length := by simpa using h
      rw [ih m hm]
      have hne : xs ≠ [] := by
        intro he
        rw [he] at hm
        simp at hm
      exact (getLast?_cons_of_ne_nil _ hne).symm

theorem getLast?_append_of_ne_nil :
    ∀ (p s : List Nat), s ≠ [] → (p ++ s).getLast? = s.getLast? := by
  intro p
  induction p with
  | nil => intro s _; rw [List.nil_append]
  | cons x xs ih =>
    intro s h
    rw [List.cons_append]
    have hne : xs ++ s ≠ [] := by simp [h]
    rw [getLast?_cons_of_ne_nil _ hne, ih s h]

theorem align_getLast? (s : List Nat) (L pad : Nat) (hL : 0 < L) (hs : s ≠ []) :
    (align s L pad).getLast? = s.getLast? := by
  unfold align
  split
  · rename_i h
    apply getLast?_dropN
    have : 0 < s.length := List.length_pos.mpr hs
    omega
  · exact getLast?_append_of_ne_nil _ _ hs

/-- C10: for every batch and width `L` at least 1, the last element of every
row of the returned matrix decodes to the end sentinel `>` (byte 62) — both
when the sequence was truncated and when it was padded or left unchanged. -/
theorem C10_last_element_decodes_to_end_sentinel
    (texts : List (List Nat)) (labels : List RawLabel) (L : Nat) (hL : 0 < L)
    (x : List (List Nat)) (y : List Bool)
    (h : gen_x_y texts labels L = some (x, y)) (row : List Nat) (hrow : row ∈ x) :
    ∃ i, row.getLast? = some i ∧ indices_char i = some 62 := by
  rcases gen_x_y_eq texts labels L with ⟨ss, hss, _, hg⟩
  rw [hg] at h
  injection h with h
  injection h with hx hy
  subst hx
  rcases List.mem_map.mp hrow with ⟨seq, hseq, rfl⟩
  rcases encodeAll_mem _ _ hss _ hseq with ⟨t, _, he⟩
  have he' : encodeChars ((60 :: normBody t) ++ [62]) = some seq := by
    rw [List.cons_append]
    exact he
  rcases encodeChars_concat _ _ _ he' with ⟨s', i, hci, rfl⟩
  have hi : i = 33 := by
    have h62 : char_indices 62 = some 33 := by decide
    rw [h62, Option.some.injEq] at hci
    exact hci.symm
  subst hi
  refine ⟨33, ?_, by decide⟩
  have hnn : s' ++ [33] ≠ ([] : List Nat) := by simp
  rw [align_getLast? _ _ _ hL hnn]
  exact List.getLast?_concat _

/-- Witness for C10 at one text, width 2. -/
theorem C10_witness_concrete :
    ∃ i, ([68, 33] : List Nat).getLast? = some i ∧ indices_char i = some 62 :=
  C10_last_element_decodes_to_end_sentinel [[97]] [] 2 (by decide) [[68, 33]] []
    (by decide) [68, 33] (by decide)

/-! ### Claim C2: whitespace collapsing -/

/-- Returns `true` when no two adjacent bytes are both whitespace (in
particular, no run of two or more spaces). -/
def noDoubleSpace : List Nat → Bool
  | [] => true
  | [_] => true
  | a :: b :: rest => (!(isSpaceByte a && isSpaceByte b)) && noDoubleSpace (b :: rest)

theorem nds_tail {c : Nat} : ∀ l : List Nat, noDoubleSpace (c :: l) = true →
    noDoubleSpace l = true := by
  intro l h
  cases l with
  | nil => rfl
  | cons y ys =>
    simp only [noDoubleSpace, Bool.and_eq_true] at h
    exact h.2

theorem nds_cons {c : Nat} (hc : isSpaceByte c = false) :
    ∀ l : List Nat, noDoubleSpace l = true → noDoubleSpace (c :: l) = true := by
  intro l h
  cases l with
  | nil => rfl
  | cons y ys => simp [noDoubleSpace, hc, h]

theorem collapseAux_true_head :
    ∀ l : List Nat, ∀ c, (collapseAux true l).head? = some c → isSpaceByte c = false := by
  intro l
  induction l with
  | nil => intro c h; simp [collapseAux] at h
  | cons x xs ih =>
    intro c h
    cases hx : isSpaceByte x with
    | true =>
      rw [show collapseAux true (x :: xs) = collapseAux true xs from by
        simp [collapseAux, hx]] at h
      exact ih c h
    | false =>
      rw [show collapseAux true (x :: xs) = x :: collapseAux false xs from by
        simp [collapseAux, hx]] at h
      rw [List.head?_cons, Option.some.injEq] at h
      rw [← h]
      exact hx

theorem nds_collapseAux : ∀ (l : List Nat) (b : Bool),
    noDoubleSpace (collapseAux b l) = true := by
  intro l
  induction l with
  | nil => intro b; rfl
  | cons x xs ih =>
    intro b
    cases hx : isSpaceByte x with
    | false =>
      rw [show collapseAux b (x :: xs) = x :: collapseAux false xs from by
        simp [collapseAux, hx]]
      exact nds_cons hx _ (ih false)
    | true =>
      cases b with
      | true =>
        rw [show collapseAux true (x :: xs) = collapseAux true xs from by
          simp [collapseAux, hx]]
        exact ih true
      | false =>
        rw [show collapseAux false (x :: xs) = 32 :: collapseAux true xs from by
          simp [collapseAux, hx]]
        cases hh : collapseAux true xs with
        | nil => rfl
        | cons y ys =>
          have hy : isSpaceByte y = false := collapseAux_true_head xs y (by rw [hh]; rfl)
          have hnds : noDoubleSpace (y :: ys) = true := hh ▸ ih true
          simp [noDoubleSpace, hy, hnds]

theorem nds_dropWhileWS : ∀ l : List Nat, noDoubleSpace l = true →
    noDoubleSpace (l.dropWhile isSpaceByte) = true := by
  intro l
  induction l with
  | nil => intro h; exact h
  | cons x xs ih =>
    intro h
    rw [List.dropWhile_cons]
    split
    · exact ih (nds_tail _ h)
    · exact h

theorem dropTrailingWS_head :
    ∀ l : List Nat, dropTrailingWS l = [] ∨ (dropTrailingWS l).head? = l.head? := by
  intro l
  cases l with
  | nil => exact Or.inl rfl
  | cons x xs =>
    unfold dropTrailingWS
    split
    · split
      · exact Or.inl rfl
      · exact Or.inr rfl
    · exact Or.inr rfl

theorem nds_dropTrailingWS : ∀ l : List Nat, noDoubleSpace l = true →
    noDoubleSpace (dropTrailingWS l) = true := by
  intro l
  induction l with
  | nil => intro h; exact h
  | cons x xs ih =>
    intro h
    unfold dropTrailingWS
    split
    · split
      · rfl
      · rfl
    · rename_i hne
      have hx := ih (nds_tail _ h)
      cases hd : dropTrailingWS xs with
      | nil => exact absurd hd hne
      | cons y ys =>
        rcases dropTrailingWS_head xs with he | hh
        · exact absurd he hne
        · rw [hd] at hh hx
          cases xs with
          | nil => simp at hh
          | cons z zs =>
            rw [List.head?_cons, List.head?_cons, Option.some.injEq] at hh
            unfold noDoubleSpace at h ⊢
            rw [Bool.and_eq_true] at h ⊢
            refine ⟨?_, hx⟩
            rw [hh]
            exact h.1

theorem dropTrailingWS_last :
    ∀ l : List Nat, ∀ c, (dropTrailingWS l).getLast? = some c → isSpaceByte c = false := by
  intro l
  induction l with
  | nil => intro c h; simp [dropTrailingWS] at h
  | cons x xs ih =>
    intro c h
    unfold dropTrailingWS at h
    split at h
    · split at h
      · simp at h
      · rename_i hx
        rw [List.getLast?_singleton, Option.some.injEq] at h
        rw [← h]
        simpa using hx
    · rename_i hne
      cases hd : dropTrailingWS xs with
      | nil => exact absurd hd hne
      | cons y ys =>
        rw [hd, getLast?_cons_of_ne_nil _ (by simp)] at h
        exact ih c (by rw [hd]; exact h)

theorem dropWhileWS_head :
    ∀ l : List Nat, ∀ c, (l.dropWhile isSpaceByte).head? = some c →
      isSpaceByte c = false := by
  intro l
  induction l with
  | nil => intro c h; simp at h
  | cons x xs ih =>
    intro c h
    rw [List.dropWhile_cons] at h
    split at h
    · exact ih c h
    · rename_i hx
      rw [List.head?_cons, Option.some.injEq] at h
      rw [← h]
      simpa using hx

theorem nds_stripWS (l : List Nat) (h : noDoubleSpace l = true) :
    noDoubleSpace (stripWS l) = true :=
  nds_dropTrailingWS _ (nds_dropWhileWS _ h)

theorem stripWS_head (l : List Nat) (c : Nat) (h : (stripWS l).head? = some c) :
    isSpaceByte c = false := by
  unfold stripWS at h
  rcases dropTrailingWS_head (l.dropWhile isSpaceByte) with he | hh
  · rw [he] at h
    simp at h
  · rw [hh] at h
    exact dropWhileWS_head l c h

theorem stripWS_last (l : List Nat) (c : Nat) (h : (stripWS l).getLast? = some c) :
    isSpaceByte c = false :=
  dropTrailingWS_last _ c h

theorem map_sub60_id : ∀ l : List Nat, 60 ∉ l → l.map sub60 = l := by
  intro l
  induction l with
  | nil => intro _; rfl
  | cons x xs ih =>
    intro h
    have h' : ¬(60 = x ∨ 60 ∈ xs) := by simpa [List.mem_cons] using h
    push_neg at h'
    have hx : x ≠ 60 := Ne.symm h'.1
    rw [List.map_cons, show sub60 x = x from by simp [sub60, hx], ih h'.2]

theorem map_sub62_id : ∀ l : List Nat, 62 ∉ l → l.map sub62 = l := by
  intro l
  induction l with
  | nil => intro _; rfl
  | cons x xs ih =>
    intro h
    have h' : ¬(62 = x ∨ 62 ∈ xs) := by simpa [List.mem_cons] using h
    push_neg at h'
    have hx : x ≠ 62 := Ne.symm h'.1
    rw [List.map_cons, show sub62 x = x from by simp [sub62, hx], ih h'.2]

theorem toLowerByte_eq_low {c a : Nat} (ha : a < 97) (h : toLowerByte c = a) : c = a := by
  unfold toLowerByte at h
  split at h
  · omega
  · exact h

theorem wsStage_not_mem {a : Nat} (ha : a < 97) (ha32 : a ≠ 32) (t : List Nat)
    (hm : a ∉ t) : a ∉ wsStage t := by
  intro hw
  unfold wsStage at hw
  rcases mem_collapseAux _ _ (mem_stripWS _ hw) with he | hm2
  · exact ha32 he
  · unfold cleanStage at hm2
    rcases List.mem_map.mp hm2 with ⟨b, hb, hbe⟩
    by_cases hl : b ∈ legal_characters
    · rw [if_pos hl] at hbe
      subst hbe
      rcases List.mem_map.mp hb with ⟨d, hd, hde⟩
      exact hm (toLowerByte_eq_low ha hde ▸ hd)
    · rw [if_neg hl] at hbe
      exact ha32 hbe.symm

/-- C2 counterexample: the code never re-collapses or re-trims after the
sentinel bytes are replaced by spaces, so a raw text containing a literal
`<` next to whitespace produces a double space inside the body, and a raw
text consisting of `<` alone produces a body that is a single space
adjacent to both sentinels. -/
theorem C2_counterexample :
    noDoubleSpace (normBody [97, 32, 60, 98]) = false ∧
    normalize [97, 32, 60, 98] = [60, 97, 32, 32, 98, 62] ∧
    (normBody [60]).head? = some 32 ∧
    normalize [60] = [60, 32, 62] := by
  decide

/-- C2 (amended): the code performs no re-collapse or re-trim after
replacing literal `<`/`>` with spaces, so the collapsed-whitespace property
only holds for raw texts containing neither `<` (60) nor `>` (62): for
those, the body of the normalized text contains no run of two adjacent
whitespace bytes and neither starts nor ends with whitespace (no space
adjacent to either sentinel). -/
theorem C2_collapsed_when_no_sentinel_bytes (t : List Nat)
    (h60 : 60 ∉ t) (h62 : 62 ∉ t) :
    noDoubleSpace (normBody t) = true ∧
    (∀ c, (normBody t).head? = some c → isSpaceByte c = false) ∧
    (∀ c, (normBody t).getLast? = some c → isSpaceByte c = false) := by
  have hb : normBody t = wsStage t := by
    unfold normBody
    rw [map_sub60_id _ (wsStage_not_mem (by omega) (by omega) t h60),
      map_sub62_id _ (wsStage_not_mem (by omega) (by omega) t h62)]
  rw [hb]
  refine ⟨nds_stripWS _ (nds_collapseAux _ false), ?_, ?_⟩
  · intro c hc
    exact stripWS_head _ c hc
  · intro c hc
    exact stripWS_last _ c hc

/-- Witness for C2 (amended) at the raw bytes 97, 32, 98 (letter, space,
letter). -/
theorem C2_collapsed_witness :
    (60 ∉ ([97, 32, 98] : List Nat)) ∧ (62 ∉ ([97, 32, 98] : List Nat)) ∧
    (noDoubleSpace (normBody [97, 32, 98]) = true ∧
     (∀ c, (normBody [97, 32, 98]).head? = some c → isSpaceByte c = false) ∧
     (∀ c, (normBody [97, 32, 98]).getLast? = some c → isSpaceByte c = false)) :=
  ⟨by decide, by decide,
    C2_collapsed_when_no_sentinel_bytes [97, 32, 98] (by decide) (by decide)⟩

end Lib
